import Mathlib

/-!
# Verification of the TJ_capital dynamic wide-table ETL core

Shallow embedding of the parts of the `Prometheus56/TJ_capital` repository
that the specification's testable properties are about:

* the dynamic wide-table upserter
  (`src/ETL/defillama/load.py`, `TVLDataLoader.upsert_defillama_daily_rows`),
* the bucketing and percentage-change analytics (`src/TVL_analytics.py`),
* the name normalizer (`src/utils/name_cleaner.py`, `clean`),
* the row builders (`src/ETL/defillama/transform.py`),
* the type normalizer (`src/ETL/Zaloha/dtypes_cleaner.py`, `normalize`).

Python dictionaries are modelled as association lists with Python's
update-in-place-or-append semantics; the Postgres wide table is modelled as
its entity-column set together with its rows keyed by the `date` column.
-/

set_option linter.unusedSectionVars false

namespace TJ

/-! ## Association lists with Python-dict / SQL-UPDATE write semantics

`setCell d k v` is Python's `d[k] = v` on a dict represented as an
association list (overwrite in place if the key exists, append otherwise);
it is also the effect of one `SET col = EXCLUDED.col` assignment of the
upsert's conflict clause on a stored row. -/

variable {κ : Type*} {α : Type*} [BEq κ] [LawfulBEq κ] [DecidableEq κ]

/-- Keys of an association list. -/
def keysOf (l : List (κ × α)) : List κ :=
  l.map Prod.fst

/-- Python dict write / SQL column assignment: overwrite every entry with
key `k` in place, or append `(k, v)` when `k` is absent. -/
def setCell (l : List (κ × α)) (k : κ) (v : α) : List (κ × α) :=
  if (l.lookup k).isSome then
    l.map (fun p => if p.1 = k then (k, v) else p)
  else
    l ++ [(k, v)]

theorem keysOf_nil : keysOf ([] : List (κ × α)) = [] := rfl

theorem keysOf_cons (p : κ × α) (l : List (κ × α)) :
    keysOf (p :: l) = p.1 :: keysOf l := rfl

theorem keysOf_append (l₁ l₂ : List (κ × α)) :
    keysOf (l₁ ++ l₂) = keysOf l₁ ++ keysOf l₂ :=
  List.map_append _ _ _

/-- A key is absent from an association list iff `lookup` misses. -/
theorem lookup_eq_none_iff (l : List (κ × α)) (k : κ) :
    l.lookup k = none ↔ k ∉ keysOf l := by
  induction l with
  | nil => simp [keysOf]
  | cons p t ih =>
    obtain ⟨k', v⟩ := p
    by_cases h : k = k'
    · subst h; simp [List.lookup, keysOf]
    · simp [List.lookup, beq_false_of_ne h, keysOf, h, ih]

/-- `setCell` only ever adds the written key. -/
theorem keysOf_setCell (l : List (String × α)) (k : String) (v : α) :
    keysOf (setCell l k v) = keysOf l ∨ keysOf (setCell l k v) = keysOf l ++ [k] := by
  unfold setCell
  by_cases h : (l.lookup k).isSome
  · left
    simp only [h, if_true, keysOf, List.map_map]
    apply List.map_congr_left
    intro p _
    by_cases hp : p.1 = k <;> simp [hp]
  · right
    simp [h, keysOf]

/-- Lookup after overwriting every entry at key `k`, read at a different key. -/
theorem lookup_overwrite_ne (t : List (κ × α)) (k k' : κ) (v : α)
    (hne : k' ≠ k) :
    (t.map (fun p => if p.1 = k then (k, v) else p)).lookup k' = t.lookup k' := by
  induction t with
  | nil => rfl
  | cons p t ih =>
    obtain ⟨k₀, v₀⟩ := p
    by_cases hk : k₀ = k
    · subst hk
      rw [List.map_cons, if_pos (show ((k₀, v₀) : κ × α).1 = k₀ from rfl)]
      simp [List.lookup, beq_false_of_ne hne, ih]
    · simp only [List.map_cons, if_neg hk]
      by_cases hk' : k' = k₀
      · subst hk'; simp [List.lookup]
      · simp [List.lookup, beq_false_of_ne hk', ih]

/-- Lookup after overwriting every entry at key `k`, read back at `k`. -/
theorem lookup_overwrite_self (t : List (κ × α)) (k : κ) (v : α)
    (hmem : k ∈ keysOf t) :
    (t.map (fun p => if p.1 = k then (k, v) else p)).lookup k = some v := by
  induction t with
  | nil => simp [keysOf] at hmem
  | cons p t ih =>
    obtain ⟨k₀, v₀⟩ := p
    by_cases hk : k₀ = k
    · subst hk
      rw [List.map_cons, if_pos (show ((k₀, v₀) : κ × α).1 = k₀ from rfl)]
      simp [List.lookup]
    · simp only [List.map_cons, if_neg hk]
      have hne : (k == k₀) = false := beq_false_of_ne (fun hh => hk hh.symm)
      simp only [List.lookup, hne]
      exact ih (by simpa [keysOf, Ne.symm hk] using hmem)

/-- Membership of a key in `keysOf` means `lookup` hits. -/
theorem lookup_isSome_of_mem (l : List (κ × α)) (k : κ)
    (hmem : k ∈ keysOf l) : (l.lookup k).isSome := by
  by_contra h
  rw [Option.not_isSome_iff_eq_none, lookup_eq_none_iff] at h
  exact h hmem

/-- Reading a key other than the one just written is unchanged. -/
theorem lookup_setCell_ne (l : List (κ × α)) (k k' : κ) (v : α)
    (hne : k' ≠ k) : (setCell l k v).lookup k' = l.lookup k' := by
  unfold setCell
  by_cases h : (l.lookup k).isSome
  · rw [if_pos h]; exact lookup_overwrite_ne l k k' v hne
  · rw [if_neg h, List.lookup_append]
    cases hl : l.lookup k' with
    | some v' => rfl
    | none => simp [List.lookup, beq_false_of_ne hne]

/-- Reading the key just written gives the written value. -/
theorem lookup_setCell_self (l : List (κ × α)) (k : κ) (v : α) :
    (setCell l k v).lookup k = some v := by
  unfold setCell
  by_cases h : (l.lookup k).isSome
  · rw [if_pos h]
    apply lookup_overwrite_self
    by_contra hmem
    rw [← lookup_eq_none_iff] at hmem
    simp [hmem] at h
  · rw [if_neg h, List.lookup_append]
    rw [Option.not_isSome_iff_eq_none] at h
    simp [h, List.lookup]

/-! ## The dynamic wide-table upserter

Embeds `TVLDataLoader.upsert_defillama_daily_rows` (`src/ETL/defillama/load.py`,
one loop iteration, i.e. one `(table_name, row)` pair) over an abstract value
type `α` (the Python scalars in the row).  The table is modelled by

* `cols` — the entity columns reported by the `information_schema` query,
  which excludes `date` and `total` exactly as the code's `WHERE` clause does;
* `rows` — the stored rows, keyed by the value of the `date` column; a stored
  row is the association list of its non-NULL cells.

The SQL statement
`INSERT ... ON CONFLICT (date) DO UPDATE SET col = EXCLUDED.col, ...`
(one assignment per key of the row other than `date`) is `upsertRows`:
if no stored row carries the incoming date, the row's cells are inserted as
given; otherwise every column listed in the row (except `date`) is
overwritten with the incoming value and all other cells are untouched.
A row without a `date` key would violate the `date DATE PRIMARY KEY`
constraint: the `INSERT` raises, `conn.commit()` is never reached and the
connection context manager rolls the transaction (including the `ALTER`s)
back, so the table is left unchanged. -/

/-- The wide table: entity-column set (as introspected, `date`/`total`
excluded) plus stored rows keyed by the `date` cell's value. -/
structure Table (α : Type*) where
  cols : Finset String
  rows : List (α × List (String × α))

variable [DecidableEq α]

/-- Effect of the conflict clause's `SET` list on a stored row: every column
supplied by the incoming row except `date` is assigned the incoming value. -/
def updateCells (r : List (String × α)) (row : List (String × α)) :
    List (String × α) :=
  row.foldl (fun acc p => if p.1 = "date" then acc else setCell acc p.1 p.2) r

/-- `INSERT ... ON CONFLICT (date) DO UPDATE` on the stored rows. -/
def upsertRows (rows : List (α × List (String × α))) (d : α)
    (row : List (String × α)) : List (α × List (String × α)) :=
  if (rows.lookup d).isSome then
    rows.map (fun p => if p.1 = d then (d, updateCells p.2 row) else p)
  else
    rows ++ [(d, row)]

/-- One iteration of `upsert_defillama_daily_rows` for one table and one row:
read the existing columns, add `new_cols = set(vals) - existing - {date,total}`
via `ALTER TABLE`, then run the conflict-clause insert.  A row with no `date`
key aborts the transaction (rolled back: table unchanged). -/
def upsert (t : Table α) (row : List (String × α)) : Table α :=
  match row.lookup "date" with
  | none => t
  | some d =>
    { cols := t.cols ∪ (((keysOf row).toFinset \ t.cols) \ ({"date", "total"} : Finset String)),
      rows := upsertRows t.rows d row }

/-- The cell stored for column `c` of the row keyed by date `d`. -/
def Table.cell (t : Table α) (d : α) (c : String) : Option α :=
  (t.rows.lookup d).bind (fun r => r.lookup c)

/-! ### Cell-level lemmas about `updateCells` -/

/-- `r` already holds value `x` at key `k`, at every entry carrying `k`. -/
def Holds (r : List (κ × α)) (k : κ) (x : α) : Prop :=
  r.lookup k = some x ∧ ∀ p ∈ r, p.1 = k → p.2 = x

theorem holds_setCell_self (l : List (κ × α)) (k : κ) (v : α) :
    Holds (setCell l k v) k v := by
  refine ⟨lookup_setCell_self l k v, ?_⟩
  intro p hp hk
  unfold setCell at hp
  by_cases h : (l.lookup k).isSome
  · rw [if_pos h] at hp
    obtain ⟨q, hq, hqe⟩ := List.mem_map.mp hp
    by_cases hq1 : q.1 = k
    · rw [if_pos hq1] at hqe; rw [← hqe]
    · rw [if_neg hq1] at hqe
      subst hqe
      exact absurd hk hq1
  · rw [if_neg h] at hp
    rcases List.mem_append.mp hp with hmem | hmem
    · exfalso
      rw [Option.not_isSome_iff_eq_none, lookup_eq_none_iff] at h
      exact h (hk ▸ List.mem_map_of_mem Prod.fst hmem)
    · simp only [List.mem_singleton] at hmem
      rw [hmem]

theorem holds_setCell_other (l : List (κ × α)) (k k' : κ) (x v : α)
    (hh : Holds l k x) (hne : k ≠ k') : Holds (setCell l k' v) k x := by
  refine ⟨by rw [lookup_setCell_ne l k' k v hne]; exact hh.1, ?_⟩
  intro p hp hk
  unfold setCell at hp
  by_cases h : (l.lookup k').isSome
  · rw [if_pos h] at hp
    obtain ⟨q, hq, hqe⟩ := List.mem_map.mp hp
    by_cases hq1 : q.1 = k'
    · rw [if_pos hq1] at hqe
      rw [← hqe] at hk
      exact absurd hk (Ne.symm hne)
    · rw [if_neg hq1] at hqe
      subst hqe
      exact hh.2 q hq hk
  · rw [if_neg h] at hp
    rcases List.mem_append.mp hp with hmem | hmem
    · exact hh.2 p hmem hk
    · simp only [List.mem_singleton] at hmem
      rw [hmem] at hk
      exact absurd hk (Ne.symm hne)

/-- Writing a value the list already holds everywhere at that key is a no-op. -/
theorem setCell_of_holds (l : List (κ × α)) (k : κ) (x : α)
    (hh : Holds l k x) : setCell l k x = l := by
  unfold setCell
  rw [if_pos (by rw [hh.1]; rfl)]
  trans (List.map id l)
  · apply List.map_congr_left
    intro p hp
    by_cases h1 : p.1 = k
    · simp only [if_pos h1, id]
      rw [← h1, ← hh.2 p hp h1]
    · simp only [if_neg h1, id]
  · exact List.map_id l

/-- Keys not named by the incoming row keep their cell through `updateCells`. -/
theorem lookup_updateCells_notin (r row : List (String × α)) (k : String)
    (hk : k ∉ keysOf row) : (updateCells r row).lookup k = r.lookup k := by
  induction row generalizing r with
  | nil => rfl
  | cons p rest ih =>
    have hk' : k ∉ keysOf rest := fun h => hk (List.mem_cons_of_mem _ h)
    have hkp : k ≠ p.1 := fun h => hk (h ▸ List.mem_cons_self _ _)
    unfold updateCells
    simp only [List.foldl_cons]
    by_cases hd : p.1 = "date"
    · rw [if_pos hd]; exact ih r hk'
    · rw [if_neg hd]
      rw [show List.foldl (fun acc q =>
            if q.1 = "date" then acc else setCell acc q.1 q.2) (setCell r p.1 p.2) rest
          = updateCells (setCell r p.1 p.2) rest from rfl]
      rw [ih _ hk']
      exact lookup_setCell_ne r p.1 k p.2 hkp

/-- `Holds` facts at keys outside the incoming row survive `updateCells`. -/
theorem holds_updateCells_notin (r row : List (String × α)) (k : String) (x : α)
    (hh : Holds r k x) (hk : k ∉ keysOf row) : Holds (updateCells r row) k x := by
  induction row generalizing r with
  | nil => exact hh
  | cons p rest ih =>
    have hk' : k ∉ keysOf rest := fun h => hk (List.mem_cons_of_mem _ h)
    have hkp : k ≠ p.1 := fun h => hk (h ▸ List.mem_cons_self _ _)
    unfold updateCells
    simp only [List.foldl_cons]
    by_cases hd : p.1 = "date"
    · rw [if_pos hd]; exact ih r hh hk'
    · rw [if_neg hd]
      exact ih _ (holds_setCell_other r k p.1 x p.2 hh hkp) hk'

/-- After `updateCells`, every non-`date` key of a duplicate-free incoming row
holds exactly the incoming value. -/
theorem holds_updateCells_mem (r row : List (String × α)) (k : String) (x : α)
    (hnd : (keysOf row).Nodup) (hmem : (k, x) ∈ row) (hd : k ≠ "date") :
    Holds (updateCells r row) k x := by
  induction row generalizing r with
  | nil => simp at hmem
  | cons p rest ih =>
    have hnd' : (keysOf rest).Nodup := (List.nodup_cons.mp hnd).2
    unfold updateCells
    simp only [List.foldl_cons]
    rcases List.mem_cons.mp hmem with heq | hmem'
    · subst heq
      rw [if_neg hd]
      have hout : k ∉ keysOf rest := by
        have := (List.nodup_cons.mp hnd).1
        simpa [keysOf] using this
      exact holds_updateCells_notin _ rest k x (holds_setCell_self r k x) hout
    · by_cases hpd : p.1 = "date"
      · rw [if_pos hpd]; exact ih r hnd' hmem'
      · rw [if_neg hpd]; exact ih _ hnd' hmem'

/-- If the stored row already holds every non-`date` value of the incoming
row, `updateCells` is the identity. -/
theorem updateCells_of_holds (r row : List (String × α))
    (hall : ∀ p ∈ row, p.1 ≠ "date" → Holds r p.1 p.2) :
    updateCells r row = r := by
  induction row with
  | nil => rfl
  | cons p rest ih =>
    unfold updateCells
    simp only [List.foldl_cons]
    by_cases hd : p.1 = "date"
    · rw [if_pos hd]
      exact ih (fun q hq => hall q (List.mem_cons_of_mem _ hq))
    · rw [if_neg hd, setCell_of_holds r p.1 p.2 (hall p (List.mem_cons_self _ _) hd)]
      exact ih (fun q hq => hall q (List.mem_cons_of_mem _ hq))

/-- `updateCells` with the same duplicate-free row twice equals once. -/
theorem updateCells_idem (r row : List (String × α))
    (hnd : (keysOf row).Nodup) :
    updateCells (updateCells r row) row = updateCells r row :=
  updateCells_of_holds _ row (fun p hp hd =>
    holds_updateCells_mem r row p.1 p.2 hnd (by simpa using hp) hd)

/-- A duplicate-free row already holds all of its own values. -/
theorem holds_self_of_mem (row : List (κ × α)) (k : κ) (x : α)
    (hnd : (keysOf row).Nodup) (hmem : (k, x) ∈ row) : Holds row k x := by
  induction row with
  | nil => simp at hmem
  | cons p rest ih =>
    have hnd' : (keysOf rest).Nodup := (List.nodup_cons.mp hnd).2
    have hout : p.1 ∉ keysOf rest := (List.nodup_cons.mp hnd).1
    rcases List.mem_cons.mp hmem with heq | hmem'
    · subst heq
      constructor
      · simp [List.lookup]
      · intro q hq hqk
        rcases List.mem_cons.mp hq with h | h
        · rw [h]
        · exfalso
          apply hout
          show k ∈ keysOf rest
          rw [← hqk]
          exact List.mem_map_of_mem Prod.fst h
    · have hk : k ∈ keysOf rest := by
        simpa [keysOf] using List.mem_map_of_mem Prod.fst hmem'
      have hne : (k == p.1) = false :=
        beq_false_of_ne (fun h => hout (h ▸ hk))
      obtain ⟨h1, h2⟩ := ih hnd' hmem'
      constructor
      · simpa [List.lookup, hne] using h1
      · intro q hq hqk
        rcases List.mem_cons.mp hq with h | h
        · exfalso
          apply hout
          have hp1 : p.1 = k := by rw [← h]; exact hqk
          rw [hp1]
          exact hk
        · exact h2 q h hqk

/-- `updateCells` of a duplicate-free row into itself is the identity. -/
theorem updateCells_self (row : List (String × α))
    (hnd : (keysOf row).Nodup) : updateCells row row = row :=
  updateCells_of_holds row row (fun p hp _ =>
    holds_self_of_mem row p.1 p.2 hnd (by simpa using hp))

/-! ### Row-level lemmas about the conflict-keyed update map -/

/-- Updating the conflicting row: lookup at the conflict key. -/
theorem lookup_map_update {γ : Type*} (rows : List (κ × γ)) (d : κ) (g : γ → γ)
    (r₀ : γ) (h : rows.lookup d = some r₀) :
    (rows.map (fun p => if p.1 = d then (d, g p.2) else p)).lookup d = some (g r₀) := by
  induction rows with
  | nil => simp at h
  | cons p rest ih =>
    obtain ⟨d₀, r⟩ := p
    by_cases hd : d₀ = d
    · subst hd
      rw [List.map_cons, if_pos (show ((d₀, r) : κ × _).1 = d₀ from rfl)]
      simp only [List.lookup, beq_self_eq_true, cond_true, Option.some_inj] at h ⊢
      rw [h]
    · have hne : (d == d₀) = false := beq_false_of_ne (fun hh => hd hh.symm)
      rw [List.map_cons, if_neg hd]
      simp only [List.lookup, hne, cond_false] at h ⊢
      exact ih h

/-- The conflict-keyed update map does not touch rows of other dates. -/
theorem map_update_of_notin {γ : Type*} (rows : List (κ × γ)) (d : κ) (g : γ → γ)
    (h : rows.lookup d = none) :
    rows.map (fun p => if p.1 = d then (d, g p.2) else p) = rows := by
  rw [lookup_eq_none_iff] at h
  trans (List.map id rows)
  · apply List.map_congr_left
    intro p hp
    have : p.1 ≠ d := fun he => h (he ▸ List.mem_map_of_mem Prod.fst hp)
    simp [this]
  · exact List.map_id rows

/-- The conflict-keyed update map keeps other dates' stored rows intact. -/
theorem lookup_map_update_ne {γ : Type*} (rows : List (κ × γ)) (d d' : κ)
    (g : γ → γ) (hne : d' ≠ d) :
    (rows.map (fun p => if p.1 = d then (d, g p.2) else p)).lookup d' =
      rows.lookup d' := by
  induction rows with
  | nil => rfl
  | cons p rest ih =>
    obtain ⟨d₀, r⟩ := p
    by_cases hd : d₀ = d
    · subst hd
      rw [List.map_cons, if_pos (show ((d₀, r) : κ × _).1 = d₀ from rfl)]
      simp [List.lookup, beq_false_of_ne hne, ih]
    · rw [List.map_cons, if_neg hd]
      by_cases hd' : d' = d₀
      · subst hd'; simp [List.lookup]
      · simp [List.lookup, beq_false_of_ne hd', ih]

variable {β : Type*}

/-! ### The upsert theorems

The statements below instantiate the claims of the specification's §8 about
the dynamic wide-table upserter. -/

/-- One upsert step never removes a column. -/
theorem cols_subset_upsert (t : Table α) (row : List (String × α)) :
    t.cols ⊆ (upsert t row).cols := by
  unfold upsert
  cases row.lookup "date" with
  | none => exact Finset.Subset.refl _
  | some d => exact Finset.subset_union_left

/-- C1 — schema monotonicity.  For a row carrying a `date` key, the column
set after the upsert is the old set united with exactly
`keys(row) − existing − {date, total}` (the code's `new_cols`); and along any
sequence of upserts the column set after `k+1` steps contains the column set
after `k` steps, so no column is ever removed. -/
theorem upsert_schema_monotone (t : Table α) (row : List (String × α)) (d : α)
    (hdate : row.lookup "date" = some d)
    (rs : List (List (String × α))) (k : ℕ) :
    (upsert t row).cols
        = t.cols ∪ (((keysOf row).toFinset \ t.cols) \ ({"date", "total"} : Finset String))
      ∧ ((rs.take k).foldl upsert t).cols ⊆ ((rs.take (k + 1)).foldl upsert t).cols := by
  constructor
  · unfold upsert
    rw [hdate]
  · rw [List.take_succ, List.foldl_append]
    cases rs[k]? with
    | none => exact Finset.Subset.refl _
    | some r => exact cols_subset_upsert _ r

/-- C2 — upsert idempotence and full overwrite.  Upserting the same
duplicate-free row twice leaves the table exactly as one upsert does, and
after an upsert every non-`date` column supplied by the row stores the row's
value for that date. -/
theorem upsert_idempotent_overwrite (t : Table α) (row : List (String × α))
    (d : α) (hdate : row.lookup "date" = some d)
    (hnd : (keysOf row).Nodup) :
    upsert (upsert t row) row = upsert t row
      ∧ ∀ k x, (k, x) ∈ row → k ≠ "date" →
          (upsert t row).cell d k = some x := by
  have hcols : ∀ c : Finset String,
      c ∪ (((keysOf row).toFinset \ c) \ ({"date", "total"} : Finset String)) ∪
        (((keysOf row).toFinset \
            (c ∪ (((keysOf row).toFinset \ c) \ ({"date", "total"} : Finset String)))) \
          ({"date", "total"} : Finset String))
      = c ∪ (((keysOf row).toFinset \ c) \ ({"date", "total"} : Finset String)) := by
    intro c
    ext a
    simp only [Finset.mem_union, Finset.mem_sdiff]
    tauto
  have hrows : upsertRows (upsertRows t.rows d row) d row = upsertRows t.rows d row := by
    unfold upsertRows
    by_cases hc : (t.rows.lookup d).isSome
    · rw [if_pos hc]
      obtain ⟨r₀, hr₀⟩ := Option.isSome_iff_exists.mp hc
      have h1 : (t.rows.map
          (fun p => if p.1 = d then (d, updateCells p.2 row) else p)).lookup d
          = some (updateCells r₀ row) :=
        lookup_map_update t.rows d (fun r => updateCells r row) r₀ hr₀
      rw [if_pos (by rw [h1]; rfl), List.map_map]
      apply List.map_congr_left
      intro p hp
      by_cases h : p.1 = d
      · simp [Function.comp, if_pos h, updateCells_idem _ row hnd]
      · simp only [Function.comp, if_neg h]
    · rw [if_neg hc]
      rw [Option.not_isSome_iff_eq_none] at hc
      have h1 : ((t.rows ++ [(d, row)]).lookup d) = some row := by
        rw [List.lookup_append, hc]
        simp [List.lookup]
      rw [if_pos (by rw [h1]; rfl), List.map_append]
      have e1 : List.map (fun p => if p.1 = d then (d, updateCells p.2 row) else p) t.rows
          = t.rows := map_update_of_notin t.rows d (fun r => updateCells r row) hc
      rw [e1]
      congr 1
      simp only [List.map_cons, List.map_nil]
      rw [if_pos trivial, updateCells_self row hnd]
  constructor
  · unfold upsert
    rw [hdate]
    simp only
    rw [hcols t.cols, hrows]
  · intro k x hmem hkd
    unfold upsert
    rw [hdate]
    unfold Table.cell upsertRows
    simp only
    by_cases hc : (t.rows.lookup d).isSome
    · rw [if_pos hc]
      obtain ⟨r₀, hr₀⟩ := Option.isSome_iff_exists.mp hc
      rw [lookup_map_update t.rows d (fun r => updateCells r row) r₀ hr₀]
      simp only [Option.some_bind]
      exact (holds_updateCells_mem r₀ row k x hnd hmem hkd).1
    · rw [if_neg hc]
      rw [Option.not_isSome_iff_eq_none] at hc
      rw [List.lookup_append, hc]
      simp only [List.lookup, beq_self_eq_true, cond_true, Option.some_bind]
      exact (holds_self_of_mem row k x hnd hmem).1

/-- C3 — non-destructive update.  If the table already stores a row for date
`d` and the incoming row omits column `k`, the stored cell at `(d, k)` is
unchanged by the upsert (omitted columns are not nulled out). -/
theorem upsert_nondestructive_omitted (t : Table α) (row : List (String × α))
    (d : α) (k : String)
    (hdate : row.lookup "date" = some d)
    (hk : k ∉ keysOf row)
    (hd : d ∈ keysOf t.rows) :
    (upsert t row).cell d k = t.cell d k := by
  unfold upsert
  rw [hdate]
  unfold Table.cell upsertRows
  simp only
  have hc : (t.rows.lookup d).isSome := lookup_isSome_of_mem t.rows d hd
  rw [if_pos hc]
  obtain ⟨r₀, hr₀⟩ := Option.isSome_iff_exists.mp hc
  rw [lookup_map_update t.rows d (fun r => updateCells r row) r₀ hr₀, hr₀]
  simp only [Option.some_bind]
  exact lookup_updateCells_notin r₀ row k hk

/-- Witness for `upsert_schema_monotone` at a concrete empty table and a
two-column row. -/
theorem upsert_schema_monotone_witness :
    (upsert (Table.mk ∅ [] : Table ℕ) [("date", 1), ("x", 2)]).cols
        = (∅ : Finset String) ∪
          (((keysOf [("date", (1 : ℕ)), ("x", 2)]).toFinset \ ∅) \
            ({"date", "total"} : Finset String))
      ∧ (([[("date", (1 : ℕ)), ("x", 2)]].take 0).foldl upsert (Table.mk ∅ [])).cols ⊆
          (([[("date", (1 : ℕ)), ("x", 2)]].take 1).foldl upsert (Table.mk ∅ [])).cols :=
  upsert_schema_monotone (Table.mk ∅ []) [("date", 1), ("x", 2)] 1 (by decide)
    [[("date", 1), ("x", 2)]] 0

/-- Witness for `upsert_idempotent_overwrite` at a concrete empty table. -/
theorem upsert_idempotent_overwrite_witness :
    upsert (upsert (Table.mk ∅ [] : Table ℕ) [("date", 1), ("x", 2)]) [("date", 1), ("x", 2)]
        = upsert (Table.mk ∅ []) [("date", 1), ("x", 2)]
      ∧ (upsert (Table.mk ∅ [] : Table ℕ) [("date", 1), ("x", 2)]).cell 1 "x" = some 2 :=
  ⟨(upsert_idempotent_overwrite (Table.mk ∅ []) [("date", 1), ("x", 2)] 1
      (by decide) (by decide)).1,
   (upsert_idempotent_overwrite (Table.mk ∅ []) [("date", 1), ("x", 2)] 1
      (by decide) (by decide)).2 "x" 2 (by decide) (by decide)⟩

/-- Witness for `upsert_nondestructive_omitted`: a stored value for column
`x` survives an upsert whose row omits `x`. -/
theorem upsert_nondestructive_omitted_witness :
    (upsert (Table.mk {"x"} [(1, [("date", 1), ("x", 5)])] : Table ℕ)
        [("date", 1), ("y", 7)]).cell 1 "x"
      = (Table.mk {"x"} [(1, [("date", 1), ("x", 5)])] : Table ℕ).cell 1 "x" :=
  upsert_nondestructive_omitted (Table.mk {"x"} [(1, [("date", 1), ("x", 5)])])
    [("date", 1), ("y", 7)] 1 "x" (by decide) (by decide) (by decide)

/-! ## Bucketed analytics (`src/TVL_analytics.py`, class `TVLAnal`)

A snapshot (`self.protocols_db.loc[self.date]` / `self.chains_db.loc[self.date]`)
is one pandas Series: entity name → measure, where a missing measure is `NaN`.
We model it as `List (String × Option ℚ)` with `none` for `NaN`.  Pandas
comparisons against `NaN` are `False`, so a `NaN` entity is selected by no
band filter. -/

/-- Pandas `series > x` on one possibly-`NaN` value. -/
def gtv (v : Option ℚ) (x : ℚ) : Bool :=
  match v with
  | none => false
  | some q => decide (x < q)

/-- Pandas `series <= x` on one possibly-`NaN` value. -/
def lev (v : Option ℚ) (x : ℚ) : Bool :=
  match v with
  | none => false
  | some q => decide (q ≤ x)

/-- `select[cond].index.to_list()`: the names whose measure passes the band
filter, in snapshot order. -/
def selectIdx (select : List (String × Option ℚ)) (p : Option ℚ → Bool) :
    List String :=
  (select.filter (fun e => p e.2)).map Prod.fst

/-- The six TVL-size groups returned by the divide functions. -/
structure Buckets where
  imba : List String
  large : List String
  big : List String
  medium : List String
  small : List String
  micro : List String
  deriving DecidableEq, Repr

/-- `TVLAnal.divide_protocols`: the six protocol bands, thresholds exactly as
in the source (note the `medium` band's upper bound `100000000000`). -/
def divide_protocols (select : List (String × Option ℚ)) : Buckets :=
  { imba := selectIdx select (fun v => gtv v 5000000000)
  , large := selectIdx select (fun v => lev v 5000000000 && gtv v 2000000000)
  , big := selectIdx select (fun v => lev v 2000000000 && gtv v 1000000000)
  , medium := selectIdx select (fun v => lev v 100000000000 && gtv v 500000000)
  , small := selectIdx select (fun v => lev v 500000000 && gtv v 150000000)
  , micro := selectIdx select (fun v => lev v 150000000) }

/-- `TVLAnal.divide_chains`: the six chain bands, thresholds as in the source. -/
def divide_chains (select : List (String × Option ℚ)) : Buckets :=
  { imba := selectIdx select (fun v => gtv v 1000000000)
  , large := selectIdx select (fun v => lev v 1000000000 && gtv v 500000000)
  , big := selectIdx select (fun v => lev v 500000000 && gtv v 100000000)
  , medium := selectIdx select (fun v => lev v 100000000 && gtv v 50000000)
  , small := selectIdx select (fun v => lev v 50000000 && gtv v 20000000)
  , micro := selectIdx select (fun v => lev v 20000000) }

/-- C4 — bucket partition fails for `divide_protocols`: the `medium` band's
upper bound is `100_000_000_000` (1e11) instead of the chained
`1_000_000_000`, so it overlaps `large` and `big`.  A protocol with TVL
exactly 2e9 lands in both `big` and `medium`; its dual membership refutes
"every entity with a non-null measure appears in exactly one bucket". -/
theorem divide_protocols_overlap :
    (divide_protocols [("aave", some 2000000000)]).big = ["aave"]
      ∧ (divide_protocols [("aave", some 2000000000)]).medium = ["aave"] := by
  constructor <;> rfl

/-! ## Percentage change (`TVLAnal.pct_change`)

The series is the date-indexed frame, modelled as rows in index order:
`(date, entity → measure)`.  `pandas.Index.get_loc` on the unique date index
is position-of-first-occurrence and raises `KeyError` when the label is
absent; ``db.index[pos - no_days]`` is Python sequence indexing, where a
negative position wraps from the end and only positions below `-len` raise
`IndexError`.  The target row is the one at the as-of date (the script's
module-level `date`, which equals `self.date` in the run), the reference row
the one labelled by the computed index position; per entity the result is
`((target − reference) / reference) * 100` (`NaN`, i.e. `none`, when the
entity is absent from the reference row). -/

/-- `pandas.Index.get_loc`: position of the first occurrence of a label. -/
def get_loc : List String → String → Option ℕ
  | [], _ => none
  | d :: rest, s => if d = s then some 0 else (get_loc rest s).map (· + 1)

/-- `.loc[label]` row access; in `pct_change` the label is always drawn from
the frame's own index, so the default branch is never reached. -/
def locRow (db : List (String × List (String × ℚ))) (lbl : String) :
    List (String × ℚ) :=
  (db.lookup lbl).getD []

/-- The two ways `pct_change` can raise: `KeyError` from `get_loc` on an
absent date, `IndexError` from numeric indexing past the front of the index. -/
inductive PctErr where
  | dateNotFound
  | indexOutOfRange
  deriving DecidableEq, Repr

/-- Python sequence indexing of `index[pos - no_days]`: a negative position
counts from the end of an index of length `n`. -/
def pyWrapIdx (pos noDays n : ℕ) : ℤ :=
  if (pos : ℤ) - (noDays : ℤ) < 0 then (pos : ℤ) - (noDays : ℤ) + (n : ℤ)
  else (pos : ℤ) - (noDays : ℤ)

/-- `TVLAnal.pct_change(no_days, db_to_analyze)` for the chosen frame. -/
def pct_change (db : List (String × List (String × ℚ))) (asOf : String)
    (noDays : ℕ) : Except PctErr (List (String × Option ℚ)) :=
  match get_loc (keysOf db) asOf with
  | none => .error .dateNotFound
  | some pos =>
    if 0 ≤ pyWrapIdx pos noDays db.length
        ∧ pyWrapIdx pos noDays db.length < (db.length : ℤ) then
      .ok ((locRow db asOf).map (fun p =>
        (p.1, ((locRow db
            ((db[(pyWrapIdx pos noDays db.length).toNat]?.getD ("", [])).1)).lookup
              p.1).map
          (fun r => (p.2 - r) / r * 100))))
    else .error .indexOutOfRange

theorem get_loc_lt_length (l : List String) (s : String) (i : ℕ)
    (h : get_loc l s = some i) : i < l.length := by
  induction l generalizing i with
  | nil => simp [get_loc] at h
  | cons d rest ih =>
    unfold get_loc at h
    by_cases hd : d = s
    · rw [if_pos hd] at h
      rw [Option.some_inj] at h
      simp [← h]
    · rw [if_neg hd] at h
      cases he : get_loc rest s with
      | none => rw [he] at h; simp at h
      | some j =>
        rw [he] at h
        simp at h
        have := ih j he
        simp only [List.length_cons]
        omega

/-- Sufficient history: when the as-of date sits at position `pos ≥ noDays`
of the index, `pct_change` is `ok` with the row `noDays` positions before the
as-of row as reference. -/
theorem pct_change_ok_spec (db : List (String × List (String × ℚ)))
    (asOf rd : String) (noDays pos : ℕ) (target ref : List (String × ℚ))
    (hfind : get_loc (keysOf db) asOf = some pos)
    (hle : noDays ≤ pos)
    (hget : db[pos - noDays]? = some (rd, ref))
    (htarget : db.lookup asOf = some target)
    (hrd : db.lookup rd = some ref) :
    pct_change db asOf noDays
      = .ok (target.map (fun p =>
          (p.1, (ref.lookup p.1).map (fun r => (p.2 - r) / r * 100)))) := by
  have hlen : pos < (keysOf db).length := get_loc_lt_length _ _ _ hfind
  rw [show (keysOf db).length = db.length from List.length_map _ _] at hlen
  unfold pct_change
  rw [hfind]
  simp only
  have hpy : pyWrapIdx pos noDays db.length = (pos : ℤ) - (noDays : ℤ) := by
    unfold pyWrapIdx
    rw [if_neg (show ¬ ((pos : ℤ) - (noDays : ℤ) < 0) by omega)]
  rw [hpy]
  rw [if_pos (show (0 : ℤ) ≤ (pos : ℤ) - (noDays : ℤ)
      ∧ (pos : ℤ) - (noDays : ℤ) < (db.length : ℤ) by omega)]
  have hidx : ((pos : ℤ) - (noDays : ℤ)).toNat = pos - noDays := by omega
  rw [hidx, hget]
  simp only [Option.getD_some]
  unfold locRow
  rw [htarget, hrd]
  simp only [Option.getD_some]

/-- Insufficient history: a negative reference position wraps from the end of
the index (Python sequence indexing) and the call still succeeds. -/
theorem pct_change_wrap_spec (db : List (String × List (String × ℚ)))
    (asOf rd : String) (noDays pos : ℕ) (target ref : List (String × ℚ))
    (hfind : get_loc (keysOf db) asOf = some pos)
    (hlt : pos < noDays)
    (hwrap : noDays ≤ pos + db.length)
    (hget : db[pos + db.length - noDays]? = some (rd, ref))
    (htarget : db.lookup asOf = some target)
    (hrd : db.lookup rd = some ref) :
    pct_change db asOf noDays
      = .ok (target.map (fun p =>
          (p.1, (ref.lookup p.1).map (fun r => (p.2 - r) / r * 100)))) := by
  have hlen : pos < (keysOf db).length := get_loc_lt_length _ _ _ hfind
  rw [show (keysOf db).length = db.length from List.length_map _ _] at hlen
  unfold pct_change
  rw [hfind]
  simp only
  have hpy : pyWrapIdx pos noDays db.length
      = (pos : ℤ) - (noDays : ℤ) + (db.length : ℤ) := by
    unfold pyWrapIdx
    rw [if_pos (show (pos : ℤ) - (noDays : ℤ) < 0 by omega)]
  rw [hpy]
  rw [if_pos (show (0 : ℤ) ≤ (pos : ℤ) - (noDays : ℤ) + (db.length : ℤ)
      ∧ (pos : ℤ) - (noDays : ℤ) + (db.length : ℤ) < (db.length : ℤ) by omega)]
  have hidx : ((pos : ℤ) - (noDays : ℤ) + (db.length : ℤ)).toNat
      = pos + db.length - noDays := by omega
  rw [hidx, hget]
  simp only [Option.getD_some]
  unfold locRow
  rw [htarget, hrd]
  simp only [Option.getD_some]

/-- An as-of date absent from the index raises the `KeyError`. -/
theorem pct_change_notfound_spec (db : List (String × List (String × ℚ)))
    (s : String) (m : ℕ) (hnone : get_loc (keysOf db) s = none) :
    pct_change db s m = .error .dateNotFound := by
  unfold pct_change
  rw [hnone]

/-- Only a reference position below `-len` raises the `IndexError`. -/
theorem pct_change_oob_spec (db : List (String × List (String × ℚ)))
    (asOf : String) (noDays pos : ℕ)
    (hfind : get_loc (keysOf db) asOf = some pos)
    (hout : pos + db.length < noDays) :
    pct_change db asOf noDays = .error .indexOutOfRange := by
  unfold pct_change
  rw [hfind]
  simp only
  have hpy : pyWrapIdx pos noDays db.length
      = (pos : ℤ) - (noDays : ℤ) + (db.length : ℤ) := by
    unfold pyWrapIdx
    rw [if_pos (show (pos : ℤ) - (noDays : ℤ) < 0 by omega)]
  rw [hpy]
  rw [if_neg (show ¬ ((0 : ℤ) ≤ (pos : ℤ) - (noDays : ℤ) + (db.length : ℤ)
      ∧ (pos : ℤ) - (noDays : ℤ) + (db.length : ℤ) < (db.length : ℤ)) by omega)]

/-- C5 — lookback semantics of `pct_change`.  When the as-of date sits at
position `pos` of the date index and at least `noDays` rows precede it, the
result is `ok`, the reference row is the one `noDays` positions before the
as-of row, and each entity's value is `(target − reference)/reference·100`;
in particular the spec's `[100, 120, 90]` scenario with a lookback of 2
yields `-10` for `chain_a`. -/
theorem pct_change_lookback (db : List (String × List (String × ℚ)))
    (asOf rd : String) (noDays pos : ℕ) (target ref : List (String × ℚ))
    (hfind : get_loc (keysOf db) asOf = some pos)
    (hle : noDays ≤ pos)
    (hget : db[pos - noDays]? = some (rd, ref))
    (htarget : db.lookup asOf = some target)
    (hrd : db.lookup rd = some ref) :
    pct_change db asOf noDays
        = .ok (target.map (fun p =>
            (p.1, (ref.lookup p.1).map (fun r => (p.2 - r) / r * 100))))
      ∧ pct_change
          [("2024-01-01", [("chain_a", 100)]),
           ("2024-01-02", [("chain_a", 120)]),
           ("2024-01-03", [("chain_a", 90)])] "2024-01-03" 2
        = .ok [("chain_a", some (-10))] := by
  refine ⟨pct_change_ok_spec db asOf rd noDays pos target ref
    hfind hle hget htarget hrd, ?_⟩
  rw [pct_change_ok_spec
    [("2024-01-01", [("chain_a", 100)]),
     ("2024-01-02", [("chain_a", 120)]),
     ("2024-01-03", [("chain_a", 90)])]
    "2024-01-03" "2024-01-01" 2 2 [("chain_a", 90)] [("chain_a", 100)]
    (by decide) (by decide) (by decide)
    (by decide) (by decide)]
  norm_num [List.lookup]

/-- C6 (amended) — error behaviour of `pct_change`.  An absent as-of date
raises the `KeyError` (`dateNotFound`).  But when fewer than `noDays` rows
precede the as-of date, the reference position `pos − noDays` is negative and
Python sequence indexing wraps: as long as `noDays ≤ pos + len`, the call
silently succeeds using the row at position `pos + len − noDays` as the
reference; only `noDays > pos + len` raises `indexOutOfRange`.  No
`InsufficientHistory`-style failure exists. -/
theorem pct_change_error_cases (db : List (String × List (String × ℚ)))
    (asOf rd : String) (noDays pos : ℕ) (target ref : List (String × ℚ))
    (hfind : get_loc (keysOf db) asOf = some pos)
    (hlt : pos < noDays) :
    (∀ s m, get_loc (keysOf db) s = none →
        pct_change db s m = .error .dateNotFound)
      ∧ (noDays ≤ pos + db.length →
          db[pos + db.length - noDays]? = some (rd, ref) →
          db.lookup asOf = some target →
          db.lookup rd = some ref →
          pct_change db asOf noDays
            = .ok (target.map (fun p =>
                (p.1, (ref.lookup p.1).map (fun r => (p.2 - r) / r * 100)))))
      ∧ (pos + db.length < noDays →
          pct_change db asOf noDays = .error .indexOutOfRange) :=
  ⟨fun s m hnone => pct_change_notfound_spec db s m hnone,
   fun hwrap hget htarget hrd =>
     pct_change_wrap_spec db asOf rd noDays pos target ref
       hfind hlt hwrap hget htarget hrd,
   fun hout => pct_change_oob_spec db asOf noDays pos hfind hout⟩

/-- C6 — counterexample to the claimed `InsufficientHistory` failure: with no
rows at all preceding the as-of date `2024-01-01`, `pct_change` with a
lookback of 2 does not fail; position `0 − 2` wraps to index `1` and it
silently returns the change of `2024-01-01` against the *later* row
`2024-01-02`: `(100−120)/120·100 = −50/3`. -/
theorem pct_change_insufficient_history_no_error :
    pct_change
        [("2024-01-01", [("chain_a", 100)]),
         ("2024-01-02", [("chain_a", 120)]),
         ("2024-01-03", [("chain_a", 90)])] "2024-01-01" 2
      = .ok [("chain_a", some (-50 / 3))] := by
  rw [pct_change_wrap_spec
    [("2024-01-01", [("chain_a", 100)]),
     ("2024-01-02", [("chain_a", 120)]),
     ("2024-01-03", [("chain_a", 90)])]
    "2024-01-01" "2024-01-02" 2 0 [("chain_a", 100)] [("chain_a", 120)]
    (by decide) (by decide) (by decide) (by decide)
    (by decide) (by decide)]
  norm_num [List.lookup]

/-- Witness for `pct_change_lookback` at the spec's three-row scenario. -/
theorem pct_change_lookback_witness :
    pct_change
        [("2024-01-01", [("chain_a", 100)]),
         ("2024-01-02", [("chain_a", 120)]),
         ("2024-01-03", [("chain_a", 90)])] "2024-01-03" 2
        = .ok ([("chain_a", (90 : ℚ))].map (fun p =>
            (p.1, (([("chain_a", (100 : ℚ))]).lookup p.1).map
              (fun r => (p.2 - r) / r * 100))))
      ∧ pct_change
          [("2024-01-01", [("chain_a", 100)]),
           ("2024-01-02", [("chain_a", 120)]),
           ("2024-01-03", [("chain_a", 90)])] "2024-01-03" 2
        = .ok [("chain_a", some (-10))] :=
  pct_change_lookback
    [("2024-01-01", [("chain_a", 100)]),
     ("2024-01-02", [("chain_a", 120)]),
     ("2024-01-03", [("chain_a", 90)])]
    "2024-01-03" "2024-01-01" 2 2 [("chain_a", 90)] [("chain_a", 100)]
    (by decide) (by decide) (by decide) (by decide) (by decide)

/-- Witness for `pct_change_error_cases`: an absent date errors, and an
as-of date with no preceding rows silently succeeds via the wrap. -/
theorem pct_change_error_cases_witness :
    pct_change
        [("2024-01-01", [("chain_a", 100)]),
         ("2024-01-02", [("chain_a", 120)]),
         ("2024-01-03", [("chain_a", 90)])] "2024-12-31" 5
        = .error .dateNotFound
      ∧ pct_change
          [("2024-01-01", [("chain_a", 100)]),
           ("2024-01-02", [("chain_a", 120)]),
           ("2024-01-03", [("chain_a", 90)])] "2024-01-01" 2
        = .ok ([("chain_a", (100 : ℚ))].map (fun p =>
            (p.1, (([("chain_a", (120 : ℚ))]).lookup p.1).map
              (fun r => (p.2 - r) / r * 100)))) :=
  ⟨(pct_change_error_cases
      [("2024-01-01", [("chain_a", 100)]),
       ("2024-01-02", [("chain_a", 120)]),
       ("2024-01-03", [("chain_a", 90)])]
      "2024-01-01" "2024-01-02" 2 0 [("chain_a", 100)] [("chain_a", 120)]
      (by decide) (by decide)).1 "2024-12-31" 5 (by decide),
   (pct_change_error_cases
      [("2024-01-01", [("chain_a", 100)]),
       ("2024-01-02", [("chain_a", 120)]),
       ("2024-01-03", [("chain_a", 90)])]
      "2024-01-01" "2024-01-02" 2 0 [("chain_a", 100)] [("chain_a", 120)]
      (by decide) (by decide)).2.1 (by decide) (by decide) (by decide) (by decide)⟩

/-! ## Name normalization (`src/utils/name_cleaner.py`, function `clean`)

```python
def clean(name: str) -> str:
    if name is None:
        return None
    name = name.strip().lower()
    name = re.sub(r"[^\w]+", "_", name)
    return name.strip("_")
```

Strings are modelled as their character lists.  The regex class `\w` and
`str.strip()`/`str.lower()` are modelled on the ASCII fragment
(`[A-Za-z0-9_]`, the four ASCII whitespace characters, and the A–Z → a–z
case map), which is the character set the DefiLlama entity names draw from.
-/


/-- ASCII reading of Python's regex class `\w`: `[A-Za-z0-9_]`. -/
def isWordChar (c : Char) : Bool :=
  (decide (65 ≤ c.toNat) && decide (c.toNat ≤ 90)) ||
  (decide (97 ≤ c.toNat) && decide (c.toNat ≤ 122)) ||
  (decide (48 ≤ c.toNat) && decide (c.toNat ≤ 57)) ||
  (c.toNat == 95)

/-- ASCII whitespace stripped by `str.strip()`. -/
def isSpaceChar (c : Char) : Bool :=
  (c.toNat == 32) || (c.toNat == 9) || (c.toNat == 13) || (c.toNat == 10)

/-- `str.strip(chars)`: drop characters satisfying `p` from both ends. -/
def stripWhile (p : Char → Bool) (l : List Char) : List Char :=
  ((l.dropWhile p).reverse.dropWhile p).reverse

/-- `re.sub(r"[^\w]+", "_", ·)`: each maximal run of non-word characters
becomes a single underscore; `inRun` says whether the previous character was
part of such a run. -/
def collapseNonWord : Bool → List Char → List Char
  | _, [] => []
  | inRun, c :: cs =>
    if isWordChar c then c :: collapseNonWord false cs
    else if inRun then collapseNonWord true cs
    else '_' :: collapseNonWord true cs

/-- `clean` on the character list: strip whitespace, lowercase, collapse
non-word runs to `_`, trim `_` from both ends. -/
def cleanList (l : List Char) : List Char :=
  stripWhile (fun c => c == '_')
    (collapseNonWord false ((stripWhile isSpaceChar l).map Char.toLower))

/-- `clean` from `src/utils/name_cleaner.py`. -/
def clean (s : String) : String :=
  ⟨cleanList s.data⟩

theorem char_toNat_ofNat {n : ℕ} (h : n.isValidChar) : (Char.ofNat n).toNat = n := by
  unfold Char.ofNat
  rw [dif_pos h]
  unfold Char.ofNatAux Char.toNat
  simp [UInt32.toNat, BitVec.toNat_ofNatLt]

theorem toLower_toNat (c : Char) :
    (Char.toLower c).toNat
      = if 65 ≤ c.toNat ∧ c.toNat ≤ 90 then c.toNat + 32 else c.toNat := by
  unfold Char.toLower
  by_cases h : c.toNat ≥ 65 ∧ c.toNat ≤ 90
  · rw [if_pos h, if_pos h]
    exact char_toNat_ofNat (Or.inl (by omega))
  · rw [if_neg h, if_neg h]

theorem toLower_idem (c : Char) : Char.toLower (Char.toLower c) = Char.toLower c := by
  unfold Char.toLower
  by_cases h : c.toNat ≥ 65 ∧ c.toNat ≤ 90
  · rw [if_pos h]
    have ht : (Char.ofNat (c.toNat + 32)).toNat = c.toNat + 32 :=
      char_toNat_ofNat (Or.inl (by omega))
    rw [if_neg (by omega)]
  · rw [if_neg h, if_neg h]

/-- `isWordChar` as arithmetic on the code point. -/
theorem isWordChar_iff (c : Char) :
    isWordChar c = true ↔
      (65 ≤ c.toNat ∧ c.toNat ≤ 90) ∨ (97 ≤ c.toNat ∧ c.toNat ≤ 122) ∨
      (48 ≤ c.toNat ∧ c.toNat ≤ 57) ∨ c.toNat = 95 := by
  unfold isWordChar
  simp only [Bool.or_eq_true, Bool.and_eq_true, decide_eq_true_eq, beq_iff_eq]
  tauto

theorem isSpaceChar_iff (c : Char) :
    isSpaceChar c = true ↔
      c.toNat = 32 ∨ c.toNat = 9 ∨ c.toNat = 13 ∨ c.toNat = 10 := by
  unfold isSpaceChar
  simp only [Bool.or_eq_true, beq_iff_eq]
  tauto

theorem word_not_space (c : Char) (h : isWordChar c = true) :
    isSpaceChar c = false := by
  rw [isWordChar_iff] at h
  rcases Bool.eq_false_or_eq_true (isSpaceChar c) with hs | hs
  · rw [isSpaceChar_iff] at hs
    omega
  · exact hs

theorem isWordChar_toLower (c : Char) (h : isWordChar c = true) :
    isWordChar (Char.toLower c) = true := by
  rw [isWordChar_iff] at h ⊢
  rw [toLower_toNat]
  by_cases hc : 65 ≤ c.toNat ∧ c.toNat ≤ 90
  · rw [if_pos hc]; omega
  · rw [if_neg hc]; omega

theorem toLower_underscore : Char.toLower '_' = '_' := by decide

theorem isWordChar_underscore : isWordChar '_' = true := by decide

/-! basic dropWhile facts -/

theorem mem_dropWhile {p : Char → Bool} {l : List Char} {c : Char}
    (h : c ∈ l.dropWhile p) : c ∈ l := by
  induction l with
  | nil => simp at h
  | cons d t ih =>
    rw [List.dropWhile_cons] at h
    by_cases hd : p d
    · rw [if_pos hd] at h
      exact List.mem_cons_of_mem _ (ih h)
    · rw [if_neg hd] at h
      exact h

theorem dropWhile_dropWhile (p : Char → Bool) (l : List Char) :
    (l.dropWhile p).dropWhile p = l.dropWhile p := by
  induction l with
  | nil => rfl
  | cons c cs ih =>
    rw [List.dropWhile_cons]
    by_cases h : p c
    · rw [if_pos h, ih]
    · rw [if_neg h, List.dropWhile_cons, if_neg h]

theorem head?_dropWhile (p : Char → Bool) (l : List Char) (c : Char)
    (h : (l.dropWhile p).head? = some c) : p c = false := by
  induction l with
  | nil => simp at h
  | cons d t ih =>
    rw [List.dropWhile_cons] at h
    by_cases hd : p d
    · rw [if_pos hd] at h
      exact ih h
    · rw [if_neg hd] at h
      simp only [List.head?_cons, Option.some_inj] at h
      rw [← h]
      exact Bool.of_not_eq_true hd

theorem dropWhile_of_allFalse {p : Char → Bool} {l : List Char}
    (h : ∀ c ∈ l, p c = false) : l.dropWhile p = l := by
  cases l with
  | nil => rfl
  | cons c cs =>
    rw [List.dropWhile_cons, if_neg (by simp [h c (List.mem_cons_self _ _)])]

theorem mem_stripWhile {p : Char → Bool} {l : List Char} {c : Char}
    (h : c ∈ stripWhile p l) : c ∈ l := by
  unfold stripWhile at h
  rw [List.mem_reverse] at h
  have h2 := mem_dropWhile h
  rw [List.mem_reverse] at h2
  exact mem_dropWhile h2

theorem stripWhile_of_allFalse {p : Char → Bool} {l : List Char}
    (h : ∀ c ∈ l, p c = false) : stripWhile p l = l := by
  unfold stripWhile
  rw [dropWhile_of_allFalse h,
    dropWhile_of_allFalse (fun c hc => h c (List.mem_reverse.mp hc)),
    List.reverse_reverse]

theorem stripWhile_idem (p : Char → Bool) (l : List Char) :
    stripWhile p (stripWhile p l) = stripWhile p l := by
  have h1 : (stripWhile p l).dropWhile p = stripWhile p l := by
    unfold stripWhile
    cases hBr : ((l.dropWhile p).reverse.dropWhile p).reverse with
    | nil => rfl
    | cons c t =>
      have hpre : ((l.dropWhile p).reverse.dropWhile p).reverse <+: l.dropWhile p := by
        have hsuf : (l.dropWhile p).reverse.dropWhile p <:+ (l.dropWhile p).reverse :=
          List.dropWhile_suffix p
        have := List.reverse_prefix.mpr hsuf
        rwa [List.reverse_reverse] at this
      have hpc : p c = false := by
        obtain ⟨u, hu⟩ := hpre
        apply head?_dropWhile p l c
        rw [← hu, hBr]
        rfl
      rw [List.dropWhile_cons, if_neg (by simp [hpc])]
  have h2 : stripWhile p (stripWhile p l)
      = (((stripWhile p l).dropWhile p).reverse.dropWhile p).reverse := rfl
  rw [h2, h1]
  unfold stripWhile
  rw [List.reverse_reverse, dropWhile_dropWhile]


theorem mem_collapseNonWord_word {b : Bool} {l : List Char} {c : Char}
    (h : c ∈ collapseNonWord b l) : isWordChar c = true := by
  induction l generalizing b with
  | nil => simp [collapseNonWord] at h
  | cons d t ih =>
    unfold collapseNonWord at h
    by_cases hd : isWordChar d
    · rw [if_pos hd] at h
      rcases List.mem_cons.mp h with he | he
      · rw [he]; exact hd
      · exact ih he
    · rw [if_neg hd] at h
      cases b with
      | true =>
        rw [if_pos rfl] at h
        exact ih h
      | false =>
        rw [if_neg (by simp)] at h
        rcases List.mem_cons.mp h with he | he
        · rw [he]; exact isWordChar_underscore
        · exact ih he

theorem mem_collapseNonWord_src {b : Bool} {l : List Char} {c : Char}
    (h : c ∈ collapseNonWord b l) : c ∈ l ∨ c = '_' := by
  induction l generalizing b with
  | nil => simp [collapseNonWord] at h
  | cons d t ih =>
    unfold collapseNonWord at h
    by_cases hd : isWordChar d
    · rw [if_pos hd] at h
      rcases List.mem_cons.mp h with he | he
      · exact Or.inl (he ▸ List.mem_cons_self _ _)
      · rcases ih he with hm | hm
        · exact Or.inl (List.mem_cons_of_mem _ hm)
        · exact Or.inr hm
    · rw [if_neg hd] at h
      cases b with
      | true =>
        rw [if_pos rfl] at h
        rcases ih h with hm | hm
        · exact Or.inl (List.mem_cons_of_mem _ hm)
        · exact Or.inr hm
      | false =>
        rw [if_neg (by simp)] at h
        rcases List.mem_cons.mp h with he | he
        · exact Or.inr he
        · rcases ih he with hm | hm
          · exact Or.inl (List.mem_cons_of_mem _ hm)
          · exact Or.inr hm

theorem collapseNonWord_of_allWord {l : List Char}
    (h : ∀ c ∈ l, isWordChar c = true) : collapseNonWord false l = l := by
  induction l with
  | nil => rfl
  | cons d t ih =>
    unfold collapseNonWord
    rw [if_pos (h d (List.mem_cons_self _ _))]
    rw [ih (fun c hc => h c (List.mem_cons_of_mem _ hc))]

theorem map_toLower_id_of {l : List Char}
    (h : ∀ c ∈ l, Char.toLower c = c) : l.map Char.toLower = l := by
  trans (l.map id)
  · exact List.map_congr_left (fun c hc => by rw [h c hc]; rfl)
  · exact List.map_id l

theorem cleanList_word {l : List Char} {c : Char} (h : c ∈ cleanList l) :
    isWordChar c = true :=
  mem_collapseNonWord_word (mem_stripWhile h)

theorem cleanList_lower {l : List Char} {c : Char} (h : c ∈ cleanList l) :
    Char.toLower c = c := by
  rcases mem_collapseNonWord_src (mem_stripWhile h) with hm | hm
  · obtain ⟨d, _, rfl⟩ := List.mem_map.mp hm
    exact toLower_idem d
  · rw [hm]
    exact toLower_underscore

theorem cleanList_idem (l : List Char) : cleanList (cleanList l) = cleanList l := by
  have h1 : stripWhile isSpaceChar (cleanList l) = cleanList l :=
    stripWhile_of_allFalse (fun c hc => word_not_space c (cleanList_word hc))
  have h2 : (cleanList l).map Char.toLower = cleanList l :=
    map_toLower_id_of (fun c hc => cleanList_lower hc)
  have h3 : collapseNonWord false (cleanList l) = cleanList l :=
    collapseNonWord_of_allWord (fun c hc => cleanList_word hc)
  show stripWhile (fun c => c == '_')
      (collapseNonWord false
        ((stripWhile isSpaceChar (cleanList l)).map Char.toLower))
    = cleanList l
  rw [h1, h2, h3]
  exact stripWhile_idem _ _

/-- C7 — normalization idempotence.  `clean` (lowercase, strip, collapse
each maximal non-word run to one `_`, trim `_`) is a pure function and
applying it twice equals applying it once: normalizing an already-normalized
name is a no-op. -/
theorem clean_idempotent (s : String) : clean (clean s) = clean s := by
  show (⟨cleanList (cleanList s.data)⟩ : String) = ⟨cleanList s.data⟩
  rw [cleanList_idem]

theorem clean_eval_curve : clean "  Curve Finance v2 " = "curve_finance_v2" := by decide

theorem clean_eval_weird : clean "++Weird--Name++" = "weird_name" := by decide


/-! ## Row builders (`src/ETL/defillama/transform.py`, class `Transform`)

A fetched dataset is its `(name, measure)` rows; a produced row is a Python
dict, i.e. an association list built with dict-update (`setCell`) semantics
so that a later duplicate key silently overwrites an earlier one.  The
`date` value is a `pd.Timestamp`; measures are floats.  `pandas.round(0)`
rounds half to even. -/

/-- A value of a built row: the `date` Timestamp or a numeric measure. -/
inductive RVal where
  | date (d : String)
  | num (q : ℚ)
  deriving DecidableEq, Repr

/-- `pandas.Series.round(0)`: round to the nearest integer, ties to even. -/
def roundHalfEven (q : ℚ) : ℚ :=
  if q - ⌊q⌋ < 1 / 2 then (⌊q⌋ : ℚ)
  else if 1 / 2 < q - ⌊q⌋ then ((⌊q⌋ : ℚ) + 1)
  else if Even ⌊q⌋ then (⌊q⌋ : ℚ) else ((⌊q⌋ : ℚ) + 1)

/-- `vals.update(mapping)` on a Python dict. -/
def pyDictUpdate (d : List (String × RVal)) (kvs : List (String × RVal)) :
    List (String × RVal) :=
  kvs.foldl (fun acc p => setCell acc p.1 p.2) d

/-- `Transform.row_protocols` steps
`to_numeric(errors='coerce').fillna(0).round(0)` then `df[df['tvl'] > 5_000_000]`:
the surviving `(name, rounded-measure)` rows.  A `none` measure is a
non-numeric source value coerced to `NaN` and filled with 0. -/
def protocolsKept (data : List (String × Option ℚ)) : List (String × ℚ) :=
  (data.map (fun p => (p.1, roundHalfEven (p.2.getD 0)))).filter
    (fun p => decide ((5000000 : ℚ) < p.2))

/-- `Transform.row_protocols`: filter, total over the filtered set, clean
names, then `{'date': today, 'total': total}` updated with the measures. -/
def row_protocols (today : String) (data : List (String × Option ℚ)) :
    List (String × RVal) :=
  pyDictUpdate
    [("date", RVal.date today),
     ("total", RVal.num ((protocolsKept data).map Prod.snd).sum)]
    ((protocolsKept data).map (fun p => (clean p.1, RVal.num p.2)))

/-- `Transform.row_dexs`: no threshold filter at all — every fetched entity
goes in, with its raw `total24h` measure, and the total is the grand sum. -/
def row_dexs (today : String) (data : List (String × ℚ)) :
    List (String × RVal) :=
  pyDictUpdate
    [("date", RVal.date today),
     ("total", RVal.num (data.map Prod.snd).sum)]
    (data.map (fun p => (clean p.1, RVal.num p.2)))

/-- Updating a dict with keys disjoint from it and from each other appends
them in order. -/
theorem keysOf_pyDictUpdate_fresh (init kvs : List (String × RVal))
    (hfresh : ∀ k ∈ keysOf kvs, k ∉ keysOf init)
    (hnd : (keysOf kvs).Nodup) :
    keysOf (pyDictUpdate init kvs) = keysOf init ++ keysOf kvs := by
  induction kvs generalizing init with
  | nil => simp [pyDictUpdate, keysOf]
  | cons p rest ih =>
    rw [keysOf_cons] at hnd
    have hnd1 : p.1 ∉ keysOf rest := (List.nodup_cons.mp hnd).1
    have hnd2 : (keysOf rest).Nodup := (List.nodup_cons.mp hnd).2
    have hp : p.1 ∉ keysOf init := hfresh p.1 (by simp [keysOf])
    have hset : setCell init p.1 p.2 = init ++ [p] := by
      unfold setCell
      rw [if_neg (by rw [Option.isSome_iff_ne_none, ne_eq, not_not,
        lookup_eq_none_iff]; exact hp)]
    unfold pyDictUpdate
    rw [List.foldl_cons, hset]
    have hrest := ih (init ++ [p]) (fun k hk => by
      rw [keysOf_append]
      simp only [List.mem_append, not_or]
      refine ⟨hfresh k (List.mem_cons_of_mem _ hk), ?_⟩
      have hne : k ≠ p.1 := fun he => hnd1 (he ▸ hk)
      simpa [keysOf] using hne) hnd2
    rw [show List.foldl (fun acc p => setCell acc p.1 p.2) (init ++ [p]) rest
        = pyDictUpdate (init ++ [p]) rest from rfl]
    rw [hrest]
    simp [keysOf_append, keysOf, List.append_assoc]

/-- A key not named by the update keeps its value. -/
theorem lookup_pyDictUpdate_notin (init kvs : List (String × RVal))
    (k : String) (hk : k ∉ keysOf kvs) :
    (pyDictUpdate init kvs).lookup k = init.lookup k := by
  induction kvs generalizing init with
  | nil => rfl
  | cons p rest ih =>
    have hk' : k ∉ keysOf rest := fun h => hk (List.mem_cons_of_mem _ h)
    have hkp : k ≠ p.1 := fun h => hk (h ▸ List.mem_cons_self _ _)
    unfold pyDictUpdate
    rw [List.foldl_cons]
    rw [show List.foldl (fun acc p => setCell acc p.1 p.2) (setCell init p.1 p.2) rest
        = pyDictUpdate (setCell init p.1 p.2) rest from rfl]
    rw [ih _ hk']
    exact lookup_setCell_ne init p.1 k p.2 hkp

/-- Shape of a built row `{'date': today, 'total': total}` updated with
cleaned entity measures whose cleaned names are distinct and avoid the
reserved keys: the key list is `date, total` then the entities in order, and
`total` keeps the computed total. -/
theorem rowShape (today : String) (entries : List (String × ℚ)) (total : ℚ)
    (hnd : (entries.map (fun p => clean p.1)).Nodup)
    (hdt : ∀ p ∈ entries, clean p.1 ≠ "date" ∧ clean p.1 ≠ "total") :
    keysOf (pyDictUpdate [("date", RVal.date today), ("total", RVal.num total)]
        (entries.map (fun p => (clean p.1, RVal.num p.2))))
      = "date" :: "total" :: entries.map (fun p => clean p.1)
    ∧ (pyDictUpdate [("date", RVal.date today), ("total", RVal.num total)]
        (entries.map (fun p => (clean p.1, RVal.num p.2)))).lookup "total"
      = some (RVal.num total) := by
  have hk : keysOf (entries.map (fun p => (clean p.1, RVal.num p.2)))
      = entries.map (fun p => clean p.1) := by
    simp [keysOf, List.map_map]
  have hfresh : ∀ k ∈ keysOf (entries.map (fun p => (clean p.1, RVal.num p.2))),
      k ∉ keysOf [("date", RVal.date today), ("total", RVal.num total)] := by
    intro k hkm
    rw [hk] at hkm
    obtain ⟨p, hp, rfl⟩ := List.mem_map.mp hkm
    have := hdt p hp
    simp [keysOf, this.1, this.2]
  constructor
  · rw [keysOf_pyDictUpdate_fresh _ _ hfresh (by rw [hk]; exact hnd), hk]
    rfl
  · rw [lookup_pyDictUpdate_notin _ _ "total" (by
      rw [hk]
      intro hmem
      obtain ⟨p, hp, he⟩ := List.mem_map.mp hmem
      exact (hdt p hp).2 he)]
    simp [List.lookup]

/-- C8 (amended) — threshold filtering.  `row_protocols` drops every entity
whose coerced-and-rounded measure is ≤ 5,000,000 before the total: the row's
keys are `date`, `total` and the surviving entities only, the total sums the
surviving measures only, and a dropped entity's cleaned name is absent from
the keys.  `row_dexs`, however, applies no threshold: every fetched entity is
a key and the total is the grand sum over all of them. -/
theorem row_builder_threshold (today : String)
    (data : List (String × Option ℚ)) (dexData : List (String × ℚ))
    (hnd : (data.map (fun p => clean p.1)).Nodup)
    (hdt : ∀ p ∈ data, clean p.1 ≠ "date" ∧ clean p.1 ≠ "total")
    (hnd' : (dexData.map (fun p => clean p.1)).Nodup)
    (hdt' : ∀ p ∈ dexData, clean p.1 ≠ "date" ∧ clean p.1 ≠ "total") :
    keysOf (row_protocols today data)
        = "date" :: "total" :: (protocolsKept data).map (fun p => clean p.1)
      ∧ (row_protocols today data).lookup "total"
          = some (RVal.num ((protocolsKept data).map Prod.snd).sum)
      ∧ (∀ n q, (n, q) ∈ data → roundHalfEven (q.getD 0) ≤ 5000000 →
            clean n ∉ keysOf (row_protocols today data))
      ∧ keysOf (row_dexs today dexData)
          = "date" :: "total" :: dexData.map (fun p => clean p.1)
      ∧ (row_dexs today dexData).lookup "total"
          = some (RVal.num (dexData.map Prod.snd).sum) := by
  have hmapeq : (data.map (fun p => (p.1, roundHalfEven (p.2.getD 0)))).map
      (fun p => clean p.1) = data.map (fun p => clean p.1) := by
    simp [List.map_map]
  have hndK : ((protocolsKept data).map (fun p => clean p.1)).Nodup := by
    unfold protocolsKept
    refine List.Nodup.sublist (List.Sublist.map _ (List.filter_sublist _)) ?_
    rw [hmapeq]
    exact hnd
  have hdtK : ∀ p ∈ protocolsKept data, clean p.1 ≠ "date" ∧ clean p.1 ≠ "total" := by
    intro p hp
    unfold protocolsKept at hp
    have hp2 := List.mem_of_mem_filter hp
    obtain ⟨q, hq, rfl⟩ := List.mem_map.mp hp2
    exact hdt q hq
  obtain ⟨hkeysP, htotP⟩ :=
    rowShape today (protocolsKept data) ((protocolsKept data).map Prod.snd).sum hndK hdtK
  obtain ⟨hkeysD, htotD⟩ :=
    rowShape today dexData (dexData.map Prod.snd).sum hnd' hdt'
  refine ⟨hkeysP, htotP, ?_, hkeysD, htotD⟩
  intro n q hmem hle hcontra
  rw [show row_protocols today data
      = pyDictUpdate [("date", RVal.date today),
          ("total", RVal.num ((protocolsKept data).map Prod.snd).sum)]
        ((protocolsKept data).map (fun p => (clean p.1, RVal.num p.2))) from rfl,
    hkeysP] at hcontra
  have hne := hdt (n, q) hmem
  rcases List.mem_cons.mp hcontra with he | hcontra2
  · exact hne.1 he
  rcases List.mem_cons.mp hcontra2 with he | hcontra3
  · exact hne.2 he
  obtain ⟨p, hp, hpe⟩ := List.mem_map.mp hcontra3
  unfold protocolsKept at hp
  have hgt : (5000000 : ℚ) < p.2 := by
    have := List.of_mem_filter hp
    simpa using this
  have hp2 := List.mem_of_mem_filter hp
  obtain ⟨m, hm, hme⟩ := List.mem_map.mp hp2
  have hclean : clean m.1 = clean n := by
    rw [← hme] at hpe
    simpa using hpe
  have hmn : m = (n, q) :=
    List.inj_on_of_nodup_map hnd hm hmem hclean
  rw [hmn] at hme
  rw [← hme] at hgt
  simp only at hgt
  exact absurd hgt (by simpa using not_lt.mpr hle)

/-- C8 — counterexample to the claimed dex-side threshold: `row_dexs` keeps
an entity whose measure is 1 (far below 5,000,000) as a row key and counts it
in the total (which would be 0 under the claimed filter). -/
theorem row_dexs_includes_small_entity :
    "a" ∈ keysOf (row_dexs "2024-01-01" [("a", 1)])
      ∧ (row_dexs "2024-01-01" [("a", 1)]).lookup "total"
          = some (RVal.num 1) := by
  have hc : clean "a" = "a" := by decide
  have h := rowShape "2024-01-01" [("a", (1 : ℚ))]
    (([("a", (1 : ℚ))].map Prod.snd).sum)
    (by simp)
    (by
      intro p hp
      simp only [List.mem_singleton] at hp
      subst hp
      rw [hc]
      exact ⟨by decide, by decide⟩)
  rw [show row_dexs "2024-01-01" [("a", 1)]
      = pyDictUpdate [("date", RVal.date "2024-01-01"),
          ("total", RVal.num (([("a", (1 : ℚ))].map Prod.snd).sum))]
        ([("a", (1 : ℚ))].map (fun p => (clean p.1, RVal.num p.2))) from rfl]
  constructor
  · rw [h.1]
    simp [hc]
  · rw [h.2]
    norm_num

/-- Witness for `row_builder_threshold` at a two-protocol dataset (one above,
one at the threshold) and a one-entity dex dataset. -/
theorem row_builder_threshold_witness :
    keysOf (row_protocols "2024-01-01" [("A", some 6000001), ("B", some 5000000)])
        = "date" :: "total" ::
          (protocolsKept [("A", some 6000001), ("B", some 5000000)]).map
            (fun p => clean p.1)
      ∧ (row_protocols "2024-01-01" [("A", some 6000001), ("B", some 5000000)]).lookup
            "total"
          = some (RVal.num
              ((protocolsKept [("A", some 6000001), ("B", some 5000000)]).map
                Prod.snd).sum)
      ∧ (∀ n q, (n, q) ∈ [("A", some 6000001), ("B", some 5000000)] →
            roundHalfEven (q.getD 0) ≤ 5000000 →
            clean n ∉ keysOf
              (row_protocols "2024-01-01" [("A", some 6000001), ("B", some 5000000)]))
      ∧ keysOf (row_dexs "2024-01-01" [("c", 2)])
          = "date" :: "total" :: [("c", (2 : ℚ))].map (fun p => clean p.1)
      ∧ (row_dexs "2024-01-01" [("c", 2)]).lookup "total"
          = some (RVal.num ([("c", (2 : ℚ))].map Prod.snd).sum) :=
  row_builder_threshold "2024-01-01" [("A", some 6000001), ("B", some 5000000)]
    [("c", 2)] (by decide) (by decide) (by decide) (by decide)

/-! ## The stablecoin row builder (`Transform.row_stablecoins`)

`df.replace('TotalCirculating','total')`, then
`df.sort_values('tvl', ascending=False).head(1596)`, then the `peggedUSD`
substitution for the `total` row, name cleaning, rounding, and the dict
update onto `{'date': today}`.  A source row is its `name`, its flat `tvl`
measure, and its nested `totalCirculatingUSD` currency map. -/

/-- One fetched stablecoin row. -/
structure SCRow where
  name : String
  tvl : ℚ
  circulating : List (String × ℚ)
  deriving DecidableEq, Repr

/-- `df.replace('TotalCirculating', 'total')` on one row. -/
def renameTotal (r : SCRow) : SCRow :=
  if r.name = "TotalCirculating" then { r with name := "total" } else r

/-- The `peggedUSD` substitution applied to the masked `total` row
(`d.get('peggedUSD', 0)`); other rows keep their flat measure. -/
def substTvl (r : SCRow) : ℚ :=
  if r.name = "total" then (r.circulating.lookup "peggedUSD").getD 0 else r.tvl

/-- `sort_values('tvl', ascending=False)`: a descending sort by measure. -/
def scSort (l : List SCRow) : List SCRow :=
  l.insertionSort (fun a b => b.tvl ≤ a.tvl)

/-- `Transform.row_stablecoins`. -/
def row_stablecoins (today : String) (data : List SCRow) :
    List (String × RVal) :=
  pyDictUpdate [("date", RVal.date today)]
    (((scSort (data.map renameTotal)).take 1596).map (fun r =>
      (clean r.name, RVal.num (roundHalfEven (substTvl r)))))

instance : IsTotal SCRow (fun a b => b.tvl ≤ a.tvl) :=
  ⟨fun a b => le_total b.tvl a.tvl⟩

instance : IsTrans SCRow (fun a b => b.tvl ≤ a.tvl) :=
  ⟨fun _ _ _ hab hbc => le_trans hbc hab⟩

/-- In a descending-sorted list, an element of the first `k` positions has
fewer than `k` strictly larger elements in the whole list. -/
theorem mem_take_countP_lt (l : List SCRow)
    (hs : l.Sorted (fun a b => b.tvl ≤ a.tvl)) (e : SCRow) (k : ℕ)
    (h : e ∈ l.take k) :
    l.countP (fun x => decide (e.tvl < x.tvl)) < k := by
  induction l generalizing k with
  | nil => simp at h
  | cons x t ih =>
    rw [List.sorted_cons] at hs
    obtain ⟨hx, hs'⟩ := hs
    cases k with
    | zero => simp at h
    | succ m =>
      rw [List.take_succ_cons] at h
      rw [List.countP_cons]
      rcases List.mem_cons.mp h with he | he
      · subst he
        have h0 : t.countP (fun y => decide (e.tvl < y.tvl)) = 0 := by
          rw [List.countP_eq_zero]
          intro y hy
          simp only [decide_eq_true_eq]
          exact not_lt.mpr (hx y hy)
        rw [h0]
        simp
      · have hlt := ih hs' m he
        by_cases hp : e.tvl < x.tvl
        · rw [if_pos (by simp [decide_eq_true_eq, hp])]
          omega
        · rw [if_neg (by simp [decide_eq_true_eq, hp])]
          omega

/-- Keys of a dict update come from the base dict or the update list. -/
theorem keysOf_pyDictUpdate_subset (init kvs : List (String × RVal))
    (k : String) (h : k ∈ keysOf (pyDictUpdate init kvs)) :
    k ∈ keysOf init ∨ k ∈ keysOf kvs := by
  induction kvs generalizing init with
  | nil => exact Or.inl h
  | cons p rest ih =>
    unfold pyDictUpdate at h
    rw [List.foldl_cons] at h
    rw [show List.foldl (fun acc p => setCell acc p.1 p.2) (setCell init p.1 p.2) rest
        = pyDictUpdate (setCell init p.1 p.2) rest from rfl] at h
    rcases ih _ h with hin | hin
    · rcases keysOf_setCell init p.1 p.2 with he | he
      · rw [he] at hin
        exact Or.inl hin
      · rw [he] at hin
        rcases List.mem_append.mp hin with h1 | h1
        · exact Or.inl h1
        · simp only [List.mem_singleton] at h1
          exact Or.inr (h1 ▸ List.mem_cons_self _ _)
    · exact Or.inr (List.mem_cons_of_mem _ hin)

/-- C10 — the silent 1596-entity cap of `row_stablecoins`: a (renamed) row
`r` with at least 1596 strictly larger measures in the dataset — i.e. outside
the top 1596 by measure — contributes no key to the produced row, provided
`r`'s cleaned name is not shared with another row (and is not `date`). -/
theorem row_stablecoins_truncates (today : String) (data : List SCRow)
    (r : SCRow)
    (hmem : r ∈ data.map renameTotal)
    (hcount : 1596 ≤ (data.map renameTotal).countP
        (fun x => decide (r.tvl < x.tvl)))
    (hinj : ∀ x ∈ data.map renameTotal, clean x.name = clean r.name → x = r)
    (hdate : clean r.name ≠ "date") :
    clean r.name ∉ keysOf (row_stablecoins today data) := by
  intro hin
  unfold row_stablecoins at hin
  rcases keysOf_pyDictUpdate_subset _ _ _ hin with hd | hkv
  · simp only [keysOf, List.map_cons, List.map_nil, List.mem_singleton] at hd
    exact hdate hd
  · rw [show keysOf (((scSort (data.map renameTotal)).take 1596).map (fun r =>
        (clean r.name, RVal.num (roundHalfEven (substTvl r)))))
      = ((scSort (data.map renameTotal)).take 1596).map (fun r => clean r.name) by
        simp only [keysOf, List.map_map, List.map_take]
        exact congrArg (List.take 1596) (List.map_congr_left (fun a _ => rfl))] at hkv
    obtain ⟨x, hx, hxe⟩ := List.mem_map.mp hkv
    have hxs : x ∈ scSort (data.map renameTotal) := List.take_subset _ _ hx
    have hxd : x ∈ data.map renameTotal :=
      (List.perm_insertionSort _ _).subset hxs
    have hxr : x = r := hinj x hxd hxe
    subst hxr
    have hsorted : (scSort (data.map renameTotal)).Sorted
        (fun a b => b.tvl ≤ a.tvl) := List.sorted_insertionSort _ _
    have hlt := mem_take_countP_lt _ hsorted x 1596 hx
    unfold scSort at hlt
    rw [(List.perm_insertionSort
        (fun a b : SCRow => b.tvl ≤ a.tvl) (data.map renameTotal)).countP_eq] at hlt
    omega

/-- Witness for `row_stablecoins_truncates`: 1596 identical large rows crowd
out a small one. -/
theorem row_stablecoins_truncates_witness :
    clean (SCRow.mk "z" 1 []).name ∉ keysOf (row_stablecoins "2024-01-01"
      (SCRow.mk "z" 1 [] :: List.replicate 1596 (SCRow.mk "big" 100 []))) := by
  have hdata : (SCRow.mk "z" 1 [] :: List.replicate 1596
        (SCRow.mk "big" 100 [])).map renameTotal
      = SCRow.mk "z" 1 [] :: List.replicate 1596 (SCRow.mk "big" 100 []) := by
    rw [List.map_cons, List.map_replicate]
    rw [show renameTotal (SCRow.mk "z" 1 []) = SCRow.mk "z" 1 [] from by decide,
      show renameTotal (SCRow.mk "big" 100 []) = SCRow.mk "big" 100 [] from by decide]
  refine row_stablecoins_truncates "2024-01-01" _ (SCRow.mk "z" 1 []) ?_ ?_ ?_ ?_
  · rw [hdata]
    exact List.mem_cons_self _ _
  · rw [hdata, List.countP_cons]
    have hz : (decide ((SCRow.mk "z" 1 []).tvl < (SCRow.mk "z" 1 []).tvl)) = false := by
      decide
    have hall : (List.replicate 1596 (SCRow.mk "big" 100 [])).countP
        (fun x => decide ((SCRow.mk "z" 1 []).tvl < x.tvl)) = 1596 := by
      have := List.countP_eq_length
        (p := fun x : SCRow => decide ((SCRow.mk "z" 1 []).tvl < x.tvl))
        (l := List.replicate 1596 (SCRow.mk "big" 100 []))
      rw [List.length_replicate] at this
      refine this.mpr ?_
      intro a ha
      rw [List.eq_of_mem_replicate ha]
      decide
    rw [hall, hz]
    simp
  · rw [hdata]
    intro x hx hcx
    rcases List.mem_cons.mp hx with he | he
    · exact he
    · rw [List.eq_of_mem_replicate he] at hcx
      exact absurd hcx (by decide)
  · decide

/-! ## Type normalization (`src/ETL/Zaloha/dtypes_cleaner.py` vs the
upserter's inline conversion)

`normalize` is the single-dispatch reference: `np.float32/float64 → float`,
`np.int32/int64 → int`, recursion through `dict` and `list`, identity on
plain `float/int/str/bool`, `pd.Timestamp → strftime('%Y-%m-%d')`, and
`TypeError` (here `none`) for anything else — a closed dispatch.  The
upserter (`load.py`, step 4) instead converts inline:
`float(v) if np.float*, int(v) if np.int*, else v` — every other value,
including the row's `pd.Timestamp` date value, passes through unchanged. -/

/-- The Python values flowing through the loaders. -/
inductive PyVal where
  | npF32 (q : ℚ)
  | npF64 (q : ℚ)
  | npI32 (n : ℤ)
  | npI64 (n : ℤ)
  | pyFloat (q : ℚ)
  | pyInt (n : ℤ)
  | pyStr (s : String)
  | pyBool (b : Bool)
  | timestamp (y m d : ℕ)
  | pyDict (l : List (String × PyVal))
  | pyList (l : List PyVal)
  | pyNone

/-- Zero-pad to two digits (`%m`, `%d`). -/
def pad2 (n : ℕ) : String :=
  if n < 10 then "0" ++ toString n else toString n

/-- Zero-pad to four digits (`%Y`). -/
def pad4 (n : ℕ) : String :=
  if n < 10 then "000" ++ toString n
  else if n < 100 then "00" ++ toString n
  else if n < 1000 then "0" ++ toString n
  else toString n

/-- `Timestamp.strftime('%Y-%m-%d')`. -/
def isoDay (y m d : ℕ) : String :=
  pad4 y ++ "-" ++ pad2 m ++ "-" ++ pad2 d

mutual

/-- `normalize` from `dtypes_cleaner.py`; `none` is the raised `TypeError`. -/
def normalize : PyVal → Option PyVal
  | .npF32 q => some (.pyFloat q)
  | .npF64 q => some (.pyFloat q)
  | .npI32 n => some (.pyInt n)
  | .npI64 n => some (.pyInt n)
  | .pyFloat q => some (.pyFloat q)
  | .pyInt n => some (.pyInt n)
  | .pyStr s => some (.pyStr s)
  | .pyBool b => some (.pyBool b)
  | .timestamp y m d => some (.pyStr (isoDay y m d))
  | .pyDict l => (normalizeDict l).map .pyDict
  | .pyList l => (normalizeList l).map .pyList
  | .pyNone => none

/-- `normalize` mapped over a dict's values. -/
def normalizeDict : List (String × PyVal) → Option (List (String × PyVal))
  | [] => some []
  | (k, v) :: rest => do
      let v' ← normalize v
      let rest' ← normalizeDict rest
      some ((k, v') :: rest')

/-- `normalize` mapped over a list. -/
def normalizeList : List PyVal → Option (List PyVal)
  | [] => some []
  | v :: rest => do
      let v' ← normalize v
      let rest' ← normalizeList rest
      some (v' :: rest')

end

/-- The upserter's inline conversion (`load.py`):
`float(v) if isinstance(v, (np.float32, np.float64)) else
 int(v) if isinstance(v, (np.int32, np.int64)) else v`. -/
def inlineNormalize : PyVal → PyVal
  | .npF32 q => .pyFloat q
  | .npF64 q => .pyFloat q
  | .npI32 n => .pyInt n
  | .npI64 n => .pyInt n
  | v => v

/-- The numpy scalar kinds the inline conversion recognizes. -/
def isNpScalar : PyVal → Bool
  | .npF32 _ => true
  | .npF64 _ => true
  | .npI32 _ => true
  | .npI64 _ => true
  | _ => false

/-- The plain portable scalars. -/
def isPlainScalar : PyVal → Bool
  | .pyFloat _ => true
  | .pyInt _ => true
  | .pyStr _ => true
  | .pyBool _ => true
  | _ => false

/-- C9 (amended) — the inline conversion agrees with the reference
`normalize` on every numpy and plain scalar, but on a `Timestamp` (the date
value every row builder puts in the row) it passes the value through
unchanged where `normalize` produces the ISO day string, and on an
unrecognized value it passes it through where `normalize` fails. -/
theorem inline_conversion_scalars_only (v : PyVal) (y m d : ℕ)
    (hs : (isNpScalar v || isPlainScalar v) = true) :
    normalize v = some (inlineNormalize v)
      ∧ inlineNormalize (.timestamp y m d) = .timestamp y m d
      ∧ normalize (.timestamp y m d) = some (.pyStr (isoDay y m d))
      ∧ inlineNormalize .pyNone = .pyNone
      ∧ normalize .pyNone = none := by
  refine ⟨?_, rfl, rfl, rfl, rfl⟩
  cases v <;> simp [isNpScalar, isPlainScalar] at hs <;> rfl

/-- C9 — counterexample to "the inline conversion agrees with `normalize`
(§4.2) on every value the row builders can produce": on the Timestamp date
value the two sides differ — the inline conversion forwards the Timestamp
itself, `normalize` an ISO calendar-day string. -/
theorem inline_conversion_timestamp_disagrees :
    inlineNormalize (.timestamp 2024 1 1) = .timestamp 2024 1 1
      ∧ normalize (.timestamp 2024 1 1) = some (.pyStr "2024-01-01")
      ∧ (PyVal.timestamp 2024 1 1) ≠ .pyStr "2024-01-01" :=
  ⟨rfl, rfl, fun h => PyVal.noConfusion h⟩

/-- Witness for `inline_conversion_scalars_only` at an `np.float64`. -/
theorem inline_conversion_scalars_only_witness :
    normalize (.npF64 5) = some (inlineNormalize (.npF64 5))
      ∧ inlineNormalize (.timestamp 2024 1 1) = .timestamp 2024 1 1
      ∧ normalize (.timestamp 2024 1 1) = some (.pyStr (isoDay 2024 1 1))
      ∧ inlineNormalize .pyNone = .pyNone
      ∧ normalize .pyNone = none :=
  inline_conversion_scalars_only (.npF64 5) 2024 1 1 rfl

end TJ
